import Mathlib

/-!
Verification of the partition-health slice of the repository
(`js_modules/dagit/packages/core/src/assets/usePartitionHealthData.tsx`).

The file embeds, as executable Lean definitions, the range decoder
(`addIndexes`), the index builder (`buildPartitionHealthData`), the query
functions (`stateForKey`, `stateForKeyRangeOrdering`,
`stateForSingleDimension`) and a step-relation model of the fetch/cache
logic of the `usePartitionHealthData` hook, and proves or refutes the
specification's claims about them.

JavaScript conventions are modelled explicitly: `Array.prototype.indexOf`
returns `-1` when the element is absent, array indexes are `Int`-valued
where the source can produce `-1`, out-of-bounds array reads yield
`undefined` (modelled as `Option`), and the non-null assertion
`r.subranges!` on a missing value is a thrown `TypeError` (modelled with
`Except`).
-/

/-- The three `PartitionState` enum values used by this slice of the source
(`PartitionState` from `partitions/PartitionStatus`). -/
inductive PartitionState where
  | SUCCESS
  | SUCCESS_MISSING
  | MISSING
deriving DecidableEq, Repr

/-- One endpoint of a decoded range: the boundary key together with the
index it resolved to (`-1` when the key is absent from the dimension). -/
structure Bound where
  key : String
  idx : Int
deriving DecidableEq, Repr

/-- The decoded `Range` type of the source:
`{start, end, value, subranges?: Range[]}`.  It is recursive in the
source; `addIndexes` only ever builds two levels. -/
inductive Range where
  | mk (start stop : Bound) (value : PartitionState) (subranges : Option (List Range))

/-- Accessor for the `start` field. -/
def Range.start : Range → Bound
  | .mk s _ _ _ => s

/-- Accessor for the `end` field (`end` is reserved in Lean). -/
def Range.stop : Range → Bound
  | .mk _ e _ _ => e

/-- Accessor for the `value` field. -/
def Range.value : Range → PartitionState
  | .mk _ _ v _ => v

/-- Accessor for the optional `subranges` field. -/
def Range.subranges : Range → Option (List Range)
  | .mk _ _ _ s => s

@[simp] theorem Range.start_mk (s e v sr) : (Range.mk s e v sr).start = s := rfl
@[simp] theorem Range.stop_mk (s e v sr) : (Range.mk s e v sr).stop = e := rfl
@[simp] theorem Range.value_mk (s e v sr) : (Range.mk s e v sr).value = v := rfl
@[simp] theorem Range.subranges_mk (s e v sr) : (Range.mk s e v sr).subranges = sr := rfl

/-- One partitioning dimension: a name and its ordered key sequence
(`partitionKeysByDimension` entry). -/
structure Dimension where
  name : String
  partitionKeys : List String
deriving DecidableEq, Repr

/-- The dimension used when the source reads past the end of the
dimension array (never hit on well-formed inputs). -/
def defaultDim : Dimension := ⟨"", []⟩

/-- `dimensions[i]` of the source. -/
def dimGet (dims : List Dimension) (i : Nat) : Dimension :=
  dims.getD i defaultDim

/-- JavaScript `Array.prototype.indexOf`: index of the first occurrence,
`-1` when absent. -/
def indexOf : List String → String → Int
  | [], _ => -1
  | a :: rest, k =>
    if a = k then 0
    else if indexOf rest k < 0 then -1 else indexOf rest k + 1

/-- Wire shape of one entry of `materializedPartitions.ranges`: either a
`MaterializedPartitionRange1D` (`{start, end}`) or a
`MaterializedPartitionRange2D`
(`{primaryDimStart, primaryDimEnd, secondaryDimRanges}`). -/
inductive MaterializedRange where
  | range1D (start stop : String)
  | range2D (primaryDimStart primaryDimEnd : String)
      (secondaryDimRanges : List (String × String))
deriving DecidableEq, Repr

/-- The body of the `for` loop of `addIndexes`: decode one wire range
against the (internally ordered) dimension list. -/
def decodeRange (dims : List Dimension) : MaterializedRange → Range
  | .range1D s e =>
    .mk ⟨s, indexOf (dimGet dims 0).partitionKeys s⟩
      ⟨e, indexOf (dimGet dims 0).partitionKeys e⟩
      .SUCCESS none
  | .range2D ps pe subs =>
    let subranges : List Range := subs.map fun sub =>
      .mk ⟨sub.1, indexOf (dimGet dims 1).partitionKeys sub.1⟩
        ⟨sub.2, indexOf (dimGet dims 1).partitionKeys sub.2⟩
        .SUCCESS none
    .mk ⟨ps, indexOf (dimGet dims 0).partitionKeys ps⟩
      ⟨pe, indexOf (dimGet dims 0).partitionKeys pe⟩
      (if subranges.length = 1 ∧
          (subranges.headD (.mk ⟨"", -1⟩ ⟨"", -1⟩ .SUCCESS none)).start.idx = 0 ∧
          (subranges.headD (.mk ⟨"", -1⟩ ⟨"", -1⟩ .SUCCESS none)).stop.idx =
            ((dimGet dims 1).partitionKeys.length : Int) - 1
        then .SUCCESS else .SUCCESS_MISSING)
      (some subranges)

/-- `addIndexes` of the source: decode every wire range, resolving each
boundary key to its index in its dimension's key sequence. -/
def addIndexes (dims : List Dimension) (ranges : List MaterializedRange) :
    List Range :=
  ranges.map (decodeRange dims)

/-- The state captured by the closures `buildPartitionHealthData` returns:
the inversion flag, the internally ordered dimension list, the declared
dimension list (exposed as `dimensions`), and the decoded ranges. -/
structure BuiltHealth where
  inverted : Bool
  dims : List Dimension
  declaredDims : List Dimension
  ranges : List Range

/-- `buildPartitionHealthData` of the source, over the already-extracted
dimension list and range payload.  `isTS` stands for
`isTimeseriesDimension` from `MultipartitioningSupport`, which is not part
of the source slice; it is passed as a parameter.  When the second
declared dimension is time-like the wire data's primary/secondary roles
are swapped, so the builder flips its internal dimension list and records
`inverted`. -/
def buildPartitionHealthData (isTS : Dimension → Bool) (declared : List Dimension)
    (payload : List MaterializedRange) : BuiltHealth :=
  let inverted : Bool := (declared.length == 2) && isTS (dimGet declared 1)
  let dims := if inverted then [dimGet declared 1, dimGet declared 0] else declared
  ⟨inverted, dims, declared, addIndexes dims payload⟩

/-- `r.start.idx <= i && r.end.idx >= i` of the source, where the index
may be `undefined` (out-of-bounds read of `dIndexes`); a comparison
against `undefined` is `false` in JavaScript. -/
def containsIdxO (r : Range) (i : Option Int) : Bool :=
  match i with
  | none => false
  | some v => decide (r.start.idx ≤ v) && decide (r.stop.idx ≥ v)

/-- `dimensionKeys.map((key, idx) => dimensions[idx].partitionKeys.indexOf(key))`. -/
def keyIndexes (dims : List Dimension) (keys : List String) : List Int :=
  keys.enum.map fun p => indexOf (dimGet dims p.1).partitionKeys p.2

/-- `stateForKeyRangeOrdering` of the source: keys are given in the
internal (range-data) dimension order. -/
def stateForKeyRangeOrdering (dims : List Dimension) (ranges : List Range)
    (dimensionKeys : List String) : PartitionState :=
  let dIndexes := keyIndexes dims dimensionKeys
  match ranges.find? (fun r => containsIdxO r dIndexes[0]?) with
  | none => .MISSING
  | some d0Range =>
    match d0Range.subranges with
    | none => .SUCCESS
    | some subs =>
      match subs.find? (fun r => containsIdxO r dIndexes[1]?) with
      | some _ => .SUCCESS
      | none => .MISSING

/-- `stateForKey` of the source: keys arrive in declared order and are
reversed when the range data is inverted. -/
def stateForKey (b : BuiltHealth) (dimensionKeys : List String) : PartitionState :=
  stateForKeyRangeOrdering b.dims b.ranges
    (if b.inverted then dimensionKeys.reverse else dimensionKeys)

/-- Modelled from the spec: `mergedStates` from `MultipartitioningSupport`
is not part of the source slice.  Spec §4.1: fold the per-combination
states with "all SUCCESS → SUCCESS; all MISSING → MISSING; mixed →
SUCCESS_MISSING". -/
def mergedStates (states : List PartitionState) : PartitionState :=
  if states.all (· = .SUCCESS) then .SUCCESS
  else if states.all (· = .MISSING) then .MISSING
  else .SUCCESS_MISSING

/-- The non-null assertion `r.subranges!` of the source: reading a missing
`subranges` throws a `TypeError`. -/
def subrangesBang (r : Range) : Except String (List Range) :=
  match r.subranges with
  | some s => .ok s
  | none => .error "TypeError: r.subranges is undefined"

/-- `ranges.filter((r) => r.subranges!.some((sr) => sr.start.idx <= d1Idx && sr.end.idx >= d1Idx))`
of the source, with the possible `TypeError` made explicit. -/
def filterMatches (d1Idx : Int) : List Range → Except String (List Range)
  | [] => .ok []
  | r :: rest =>
    match subrangesBang r with
    | .error e => .error e
    | .ok subs =>
      match filterMatches d1Idx rest with
      | .error e => .error e
      | .ok tail =>
        if subs.any fun sr =>
            decide (sr.start.idx ≤ d1Idx) && decide (sr.stop.idx ≥ d1Idx) then
          .ok (r :: tail)
        else
          .ok tail

/-- `stateForSingleDimension` of the source.  The thrown errors (the
third-dimension `Error` and the `TypeError` from `r.subranges!`) are
modelled as `Except.error`. -/
def stateForSingleDimension (b : BuiltHealth) (dimensionIdx : Int)
    (dimensionKey : String) (otherDimensionSelectedKeys : Option (List String)) :
    Except String PartitionState :=
  let dimensionIdx := if b.inverted then 1 - dimensionIdx else dimensionIdx
  if dimensionIdx = 0 ∧ b.dims.length = 1 then
    .ok (stateForKeyRangeOrdering b.dims b.ranges [dimensionKey])
  else if dimensionIdx = 0 then
    match otherDimensionSelectedKeys with
    | none =>
      let d0Idx := indexOf (dimGet b.dims 0).partitionKeys dimensionKey
      match b.ranges.find? fun r =>
          decide (r.start.idx ≤ d0Idx) && decide (r.stop.idx ≥ d0Idx) with
      | some d0Range => .ok d0Range.value
      | none => .ok .MISSING
    | some keys =>
      .ok (mergedStates (keys.map fun k =>
        stateForKeyRangeOrdering b.dims b.ranges [dimensionKey, k]))
  else if dimensionIdx = 1 then do
    let d0Idxs := otherDimensionSelectedKeys.map fun keys =>
      keys.map fun key => indexOf (dimGet b.dims 0).partitionKeys key
    let d1Idx := indexOf (dimGet b.dims 1).partitionKeys dimensionKey
    let d0RangesContainingSubrangeWithD1Idx ← filterMatches d1Idx b.ranges
    let all :=
      match d0Idxs with
      | none => d0RangesContainingSubrangeWithD1Idx.length == b.ranges.length
      | some idxs => idxs.all fun i =>
          d0RangesContainingSubrangeWithD1Idx.any fun r =>
            decide (r.start.idx ≤ i) && decide (r.stop.idx ≥ i)
    if all then
      pure .SUCCESS
    else if d0RangesContainingSubrangeWithD1Idx.length > 0 then
      pure .SUCCESS_MISSING
    else
      pure .MISSING
  else
    .error "stateForSingleDimension asked for third dimension"

/-!
Cache model for the `usePartitionHealthData` hook.

The hook keeps `result : (PartitionHealthData & {fetchedAt : string})[]` in
React state.  An asset key is an ordered path of strings; the source
compares keys by `JSON.stringify` / lodash `isEqual`, i.e. structurally,
which is list equality here.  Each render computes `missingKeyJSON` (the
first requested key with no hint-matching entry), fires one asynchronous
fetch for it, and on completion replaces any entry for that key.  The
rendered value is `result` filtered to the requested keys.  The
asynchronous part is modelled as a transition system: `issue` starts a
fetch for the key `missingKey` selects, `resolve` completes any in-flight
fetch, applying the completion closure with the hint captured at issue
time.
-/

/-- One element of the hook's `result` state:
`PartitionHealthData & {fetchedAt: string}` (the parts the cache logic
reads: the asset key, the fetch hint, and the built index). -/
structure CacheEntry where
  assetKey : List String
  fetchedAt : String
  health : BuiltHealth

/-- The `missingKeyJSON` computation of the hook: the first requested key
for which no entry both matches the key structurally and carries the
current freshness hint. -/
def missingKey (result : List CacheEntry) (assetKeys : List (List String))
    (hint : String) : Option (List String) :=
  assetKeys.find? fun k =>
    !(result.any fun r => decide (r.assetKey = k) && decide (r.fetchedAt = hint))

/-- The fetch-completion update of the hook:
`setResult((result) => [...result.filter((r) => !isEqual(r.assetKey, loadKey)), {...loaded, fetchedAt}])`.
The appended entry's hint is the one captured when the fetch was issued. -/
def applyFetch (result : List CacheEntry) (loadKey : List String) (hint : String)
    (health : BuiltHealth) : List CacheEntry :=
  result.filter (fun r => !decide (r.assetKey = loadKey)) ++ [⟨loadKey, hint, health⟩]

/-- The hook's returned value: `result` filtered to the requested keys. -/
def viewResult (result : List CacheEntry) (assetKeys : List (List String)) :
    List CacheEntry :=
  result.filter fun r => assetKeys.contains r.assetKey

/-- Cache state: the React `result` state plus the set of in-flight
fetches, each remembering the key and the hint captured at issue time. -/
structure CacheState where
  result : List CacheEntry
  inflight : List (List String × String)

/-- One step of the cache: either a render issues a fetch for the key
`missingKey` selects (for some requested key list and hint supplied by the
caller at that render), or an in-flight fetch resolves with some payload
and applies the completion closure. -/
inductive CacheStep : CacheState → CacheState → Prop where
  | issue (s : CacheState) (assetKeys : List (List String)) (hint : String)
      (k : List String) :
      missingKey s.result assetKeys hint = some k →
      CacheStep s ⟨s.result, s.inflight ++ [(k, hint)]⟩
  | resolve (s : CacheState) (k : List String) (hint : String) (health : BuiltHealth) :
      (k, hint) ∈ s.inflight →
      CacheStep s ⟨applyFetch s.result k hint health, s.inflight.erase (k, hint)⟩

/-- Cache states reachable from the initial empty state. -/
inductive Reachable : CacheState → Prop where
  | init : Reachable ⟨[], []⟩
  | step {s s' : CacheState} : Reachable s → CacheStep s s' → Reachable s'

/-!  Helper lemmas about the JavaScript `indexOf` model. -/

theorem indexOf_nil (k : String) : indexOf [] k = -1 := rfl

theorem indexOf_cons (a : String) (l : List String) (k : String) :
    indexOf (a :: l) k =
      if a = k then 0 else if indexOf l k < 0 then -1 else indexOf l k + 1 := rfl

theorem indexOf_nonneg_of_mem {l : List String} {k : String} (h : k ∈ l) :
    0 ≤ indexOf l k := by
  induction l with
  | nil => cases h
  | cons a rest ih =>
    rw [indexOf_cons]
    by_cases hak : a = k
    · simp [hak]
    · have hk : k ∈ rest := by
        rcases List.mem_cons.1 h with h' | h'
        · exact absurd h'.symm hak
        · exact h'
      have := ih hk
      simp only [if_neg hak]
      omega

theorem indexOf_lt_length_of_mem {l : List String} {k : String} (h : k ∈ l) :
    indexOf l k < (l.length : Int) := by
  induction l with
  | nil => cases h
  | cons a rest ih =>
    rw [indexOf_cons]
    by_cases hak : a = k
    · simp [hak]
    · have hk : k ∈ rest := by
        rcases List.mem_cons.1 h with h' | h'
        · exact absurd h'.symm hak
        · exact h'
      have := ih hk
      simp only [if_neg hak, List.length_cons]
      push_cast
      omega

theorem indexOf_eq_neg_one_of_not_mem {l : List String} {k : String} (h : k ∉ l) :
    indexOf l k = -1 := by
  induction l with
  | nil => rfl
  | cons a rest ih =>
    rw [indexOf_cons]
    have hak : a ≠ k := fun hh => h (hh ▸ List.mem_cons_self a rest)
    have hk : k ∉ rest := fun hh => h (List.mem_cons_of_mem a hh)
    rw [if_neg hak, ih hk]
    simp

theorem indexOf_cons_self (a : String) (l : List String) : indexOf (a :: l) a = 0 := by
  rw [indexOf_cons, if_pos rfl]

/-- With duplicate-free keys, the last key resolves to the last index. -/
theorem indexOf_getLastD_of_nodup {l : List String} (hn : l.Nodup) (hne : l ≠ [])
    (d : String) : indexOf l (l.getLastD d) = (l.length : Int) - 1 := by
  induction l generalizing d with
  | nil => exact absurd rfl hne
  | cons a rest ih =>
    cases rest with
    | nil => simp [List.getLastD_cons, indexOf_cons_self]
    | cons b r2 =>
      have hn' : (b :: r2).Nodup := (List.nodup_cons.1 hn).2
      have hna : a ∉ b :: r2 := (List.nodup_cons.1 hn).1
      have hmem : (b :: r2).getLastD a ∈ b :: r2 := by
        rw [List.getLastD_cons]
        exact List.getLastD_mem_cons r2 b
      have hak : a ≠ (b :: r2).getLastD a := fun hh => hna (hh ▸ hmem)
      have hrec : indexOf (b :: r2) ((b :: r2).getLastD a) =
          ((b :: r2).length : Int) - 1 := ih hn' (by simp) a
      rw [List.getLastD_cons, indexOf_cons, if_neg hak, hrec]
      have hpos : ¬(((b :: r2).length : Int) - 1 < 0) := by
        simp only [List.length_cons]
        push_cast
        omega
      rw [if_neg hpos]
      simp only [List.length_cons]
      push_cast
      omega

/-!  Helper predicates and lemmas about range containment and queries. -/

/-- `r.start.idx <= i && r.end.idx >= i` on a defined index. -/
def containsB (r : Range) (i : Int) : Bool :=
  decide (r.start.idx ≤ i) && decide (r.stop.idx ≥ i)

@[simp] theorem containsIdxO_some (r : Range) (v : Int) :
    containsIdxO r (some v) = containsB r v := rfl

@[simp] theorem containsIdxO_none (r : Range) : containsIdxO r none = false := rfl

/-- Some secondary range of `r` covers dimension-1 index `i`. -/
def subCovers (r : Range) (i : Int) : Prop :=
  ∃ sr ∈ r.subranges.getD [], sr.start.idx ≤ i ∧ i ≤ sr.stop.idx

instance (r : Range) (i : Int) : Decidable (subCovers r i) := by
  unfold subCovers; infer_instance

instance (o : Option (List Range)) : Decidable (o = none) :=
  Option.decidable_eq_none

/-- The primary range list is sorted ascending and non-overlapping
(spec §3: the index's ranges are ordered and non-overlapping). -/
def rangesOrdered (rs : List Range) : Prop :=
  rs.Pairwise fun a b => a.stop.idx < b.start.idx

instance (rs : List Range) : Decidable (rangesOrdered rs) := by
  unfold rangesOrdered; infer_instance

/-- In an ordered, non-overlapping range list, `find?` locates exactly the
member range that contains the index. -/
theorem find?_containsB_eq_some {rs : List Range} {i : Int} {r : Range}
    (hord : rangesOrdered rs) (hmem : r ∈ rs) (hc : containsB r i = true) :
    rs.find? (fun x => containsB x i) = some r := by
  induction rs with
  | nil => cases hmem
  | cons a rest ih =>
    have hpa := (List.pairwise_cons.1 hord)
    rcases List.mem_cons.1 hmem with rfl | hmem'
    · exact List.find?_cons_of_pos rest hc
    · by_cases ha : containsB a i = true
      · exfalso
        have h1 := hpa.1 r hmem'
        simp only [containsB, Bool.and_eq_true, decide_eq_true_eq, ge_iff_le] at ha hc
        omega
      · exact (List.find?_cons_of_neg rest ha).trans (ih hpa.2 hmem')

/-- Unfolding of the point query at a two-key tuple. -/
theorem stateForKeyRangeOrdering_pair (dims : List Dimension) (rs : List Range)
    (k0 k1 : String) :
    stateForKeyRangeOrdering dims rs [k0, k1] =
      match rs.find? (fun r => containsB r (indexOf (dimGet dims 0).partitionKeys k0)) with
      | none => .MISSING
      | some d0Range =>
        match d0Range.subranges with
        | none => .SUCCESS
        | some subs =>
          match subs.find? (fun r =>
              containsB r (indexOf (dimGet dims 1).partitionKeys k1)) with
          | some _ => .SUCCESS
          | none => .MISSING := rfl

/-- The two-key point query never returns SUCCESS_MISSING. -/
theorem stateForKeyRangeOrdering_total (dims : List Dimension) (rs : List Range)
    (k0 k1 : String) :
    stateForKeyRangeOrdering dims rs [k0, k1] = .SUCCESS ∨
    stateForKeyRangeOrdering dims rs [k0, k1] = .MISSING := by
  rw [stateForKeyRangeOrdering_pair]
  split
  · right; rfl
  · split
    · left; rfl
    · split
      · left; rfl
      · right; rfl

/-- Characterization of a SUCCESS answer of the two-key point query over
an ordered, non-overlapping range list. -/
theorem stateForKeyRangeOrdering_success_iff (dims : List Dimension) (rs : List Range)
    (k0 k1 : String) (hord : rangesOrdered rs) :
    stateForKeyRangeOrdering dims rs [k0, k1] = .SUCCESS ↔
      ∃ r ∈ rs,
        (r.start.idx ≤ indexOf (dimGet dims 0).partitionKeys k0 ∧
          indexOf (dimGet dims 0).partitionKeys k0 ≤ r.stop.idx) ∧
        (r.subranges = none ∨
          subCovers r (indexOf (dimGet dims 1).partitionKeys k1)) := by
  rw [stateForKeyRangeOrdering_pair]
  cases hf : rs.find? (fun r => containsB r (indexOf (dimGet dims 0).partitionKeys k0)) with
  | none =>
    have hnone := List.find?_eq_none.1 hf
    simp only [reduceCtorEq, false_iff]
    rintro ⟨r, hr, hc, -⟩
    exact hnone r hr (by simp [containsB, hc.1, hc.2])
  | some r0 =>
    have hr0mem := List.mem_of_find?_eq_some hf
    have hr0c := List.find?_some hf
    dsimp only
    cases hs : r0.subranges with
    | none =>
      simp only [true_iff]
      refine ⟨r0, hr0mem, ?_, Or.inl hs⟩
      simpa [containsB, ge_iff_le] using hr0c
    | some subs =>
      dsimp only
      cases hfs : subs.find? (fun r =>
          containsB r (indexOf (dimGet dims 1).partitionKeys k1)) with
      | none =>
        have hnone := List.find?_eq_none.1 hfs
        simp only [reduceCtorEq, false_iff]
        rintro ⟨r, hr, hc, hsub⟩
        have hcB : containsB r (indexOf (dimGet dims 0).partitionKeys k0) = true := by
          simp [containsB, hc.1, hc.2]
        have heq := find?_containsB_eq_some hord hr hcB
        rw [hf] at heq
        injection heq with heq
        subst heq
        rcases hsub with hnone' | hcov
        · rw [hs] at hnone'; cases hnone'
        · rcases hcov with ⟨sr, hsrmem, hsr⟩
          rw [hs] at hsrmem
          exact hnone sr (by simpa using hsrmem) (by simp [containsB, hsr.1, hsr.2])
      | some sr0 =>
        simp only [true_iff]
        refine ⟨r0, hr0mem, ?_, Or.inr ?_⟩
        · simpa [containsB, ge_iff_le] using hr0c
        · have hsrmem := List.mem_of_find?_eq_some hfs
          have hsrc := List.find?_some hfs
          refine ⟨sr0, ?_, ?_⟩
          · rw [hs]; simpa using hsrmem
          · simpa [containsB, ge_iff_le] using hsrc

/-- The two-key point query is MISSING exactly when the SUCCESS
characterization fails. -/
theorem stateForKeyRangeOrdering_missing_iff (dims : List Dimension) (rs : List Range)
    (k0 k1 : String) (hord : rangesOrdered rs) :
    stateForKeyRangeOrdering dims rs [k0, k1] = .MISSING ↔
      ¬∃ r ∈ rs,
        (r.start.idx ≤ indexOf (dimGet dims 0).partitionKeys k0 ∧
          indexOf (dimGet dims 0).partitionKeys k0 ≤ r.stop.idx) ∧
        (r.subranges = none ∨
          subCovers r (indexOf (dimGet dims 1).partitionKeys k1)) := by
  rw [← stateForKeyRangeOrdering_success_iff dims rs k0 k1 hord]
  rcases stateForKeyRangeOrdering_total dims rs k0 k1 with h | h <;> rw [h] <;> simp

/-- C1: for a 2-dimensional index whose declared order matches the range
data order, `stateForKey [k0, k1]` on keys present in their dimensions is
SUCCESS iff some primary range interval contains `k0`'s index and either
that range has no secondary ranges or one of its secondary ranges contains
`k1`'s index; in every other case it is MISSING. -/
theorem c1_stateForKey_2d_success_iff (isTS : Dimension → Bool) (dims : List Dimension)
    (payload : List MaterializedRange) (k0 k1 : String)
    (_hlen : dims.length = 2) (hinv : isTS (dimGet dims 1) = false)
    (_hk0 : k0 ∈ (dimGet dims 0).partitionKeys)
    (_hk1 : k1 ∈ (dimGet dims 1).partitionKeys)
    (hord : rangesOrdered (buildPartitionHealthData isTS dims payload).ranges) :
    (stateForKey (buildPartitionHealthData isTS dims payload) [k0, k1] = .SUCCESS ↔
      ∃ r ∈ (buildPartitionHealthData isTS dims payload).ranges,
        (r.start.idx ≤ indexOf (dimGet dims 0).partitionKeys k0 ∧
          indexOf (dimGet dims 0).partitionKeys k0 ≤ r.stop.idx) ∧
        (r.subranges = none ∨
          subCovers r (indexOf (dimGet dims 1).partitionKeys k1))) ∧
    (stateForKey (buildPartitionHealthData isTS dims payload) [k0, k1] = .MISSING ↔
      ¬∃ r ∈ (buildPartitionHealthData isTS dims payload).ranges,
        (r.start.idx ≤ indexOf (dimGet dims 0).partitionKeys k0 ∧
          indexOf (dimGet dims 0).partitionKeys k0 ≤ r.stop.idx) ∧
        (r.subranges = none ∨
          subCovers r (indexOf (dimGet dims 1).partitionKeys k1))) := by
  have hb : buildPartitionHealthData isTS dims payload =
      ⟨false, dims, dims, addIndexes dims payload⟩ := by
    simp [buildPartitionHealthData, hinv]
  rw [hb] at hord ⊢
  have hstate : stateForKey ⟨false, dims, dims, addIndexes dims payload⟩ [k0, k1] =
      stateForKeyRangeOrdering dims (addIndexes dims payload) [k0, k1] := rfl
  have hranges : (⟨false, dims, dims, addIndexes dims payload⟩ : BuiltHealth).ranges =
      addIndexes dims payload := rfl
  rw [hstate, hranges] at *
  exact ⟨stateForKeyRangeOrdering_success_iff dims _ k0 k1 hord,
    stateForKeyRangeOrdering_missing_iff dims _ k0 k1 hord⟩

/-- Witness for C1: a concrete 2-dimensional index with one primary range
`a..b` carrying one secondary range `x..x`; `stateForKey ["a","x"]` is
SUCCESS. -/
theorem c1_stateForKey_2d_success_iff_witness :
    ([⟨"d0", ["a", "b"]⟩, ⟨"d1", ["x", "y"]⟩] : List Dimension).length = 2 ∧
    "a" ∈ (dimGet [⟨"d0", ["a", "b"]⟩, ⟨"d1", ["x", "y"]⟩] 0).partitionKeys ∧
    "x" ∈ (dimGet [⟨"d0", ["a", "b"]⟩, ⟨"d1", ["x", "y"]⟩] 1).partitionKeys ∧
    rangesOrdered (buildPartitionHealthData (fun _ => false)
      [⟨"d0", ["a", "b"]⟩, ⟨"d1", ["x", "y"]⟩]
      [.range2D "a" "b" [("x", "x")]]).ranges ∧
    stateForKey (buildPartitionHealthData (fun _ => false)
      [⟨"d0", ["a", "b"]⟩, ⟨"d1", ["x", "y"]⟩]
      [.range2D "a" "b" [("x", "x")]]) ["a", "x"] = .SUCCESS :=
  ⟨by decide, by decide, by decide, by decide,
    (c1_stateForKey_2d_success_iff (fun _ => false)
      [⟨"d0", ["a", "b"]⟩, ⟨"d1", ["x", "y"]⟩]
      [.range2D "a" "b" [("x", "x")]] "a" "x"
      (by decide) rfl (by decide) (by decide) (by decide)).1.mpr (by decide)⟩

/-- C3 counterexample: a primary range whose two contiguous secondary
ranges `x..x`, `y..y` together span all of dimension 1 is nevertheless
stored as PARTIAL (SUCCESS_MISSING), because the source tests
`subranges.length === 1` and performs no merging of contiguous ranges. -/
theorem c3_counterexample :
    ((addIndexes [⟨"d0", ["a"]⟩, ⟨"d1", ["x", "y"]⟩]
        [.range2D "a" "a" [("x", "x"), ("y", "y")]]).map Range.value =
      [.SUCCESS_MISSING]) ∧
    (∀ j : Fin 2, ∃ r ∈ addIndexes [⟨"d0", ["a"]⟩, ⟨"d1", ["x", "y"]⟩]
        [.range2D "a" "a" [("x", "x"), ("y", "y")]], subCovers r (j : Int)) :=
  ⟨rfl, by decide⟩

/-- C3 (amended): a decoded 2-dimensional primary range is stored as FULL
(SUCCESS) iff its secondary range list is literally a single range whose
start key resolves to index 0 and whose end key resolves to the last index
of dimension 1; in every other case — including several contiguous
secondary ranges that together span dimension 1 — it is stored as PARTIAL
(SUCCESS_MISSING). -/
theorem c3_full_iff (dims : List Dimension) (ps pe : String)
    (subs : List (String × String)) :
    (decodeRange dims (.range2D ps pe subs)).value = .SUCCESS ↔
      ∃ sub, subs = [sub] ∧
        indexOf (dimGet dims 1).partitionKeys sub.1 = 0 ∧
        indexOf (dimGet dims 1).partitionKeys sub.2 =
          ((dimGet dims 1).partitionKeys.length : Int) - 1 := by
  cases subs with
  | nil => simp [decodeRange]
  | cons a rest =>
    cases rest with
    | nil =>
      simp only [decodeRange, List.map_cons, List.map_nil, List.length_cons,
        List.length_nil, List.headD_cons, Range.value_mk, Range.start_mk,
        Range.stop_mk]
      split <;> simp_all
    | cons b r2 =>
      simp only [decodeRange, List.map_cons, List.length_cons, List.headD_cons,
        Range.value_mk, Range.start_mk, Range.stop_mk]
      split
      · rename_i hcond
        omega
      · simp

/-- C8: a query for any dimension index ≥ 2 (inverted or not, 1- or
2-dimensional) returns the unsupported-dimension error.  The query is a
pure function of the immutable index value, so the error is fatal only to
that call: the index itself is unchanged and remains usable. -/
theorem c8_third_dimension_error (b : BuiltHealth) (dimensionIdx : Int)
    (key : String) (otherKeys : Option (List String)) (h : 2 ≤ dimensionIdx) :
    stateForSingleDimension b dimensionIdx key otherKeys =
      .error "stateForSingleDimension asked for third dimension" := by
  unfold stateForSingleDimension
  by_cases hb : b.inverted = true
  · rw [if_pos hb]
    rw [if_neg (by omega : ¬(1 - dimensionIdx = 0 ∧ b.dims.length = 1))]
    rw [if_neg (by omega : ¬(1 - dimensionIdx = 0))]
    rw [if_neg (by omega : ¬(1 - dimensionIdx = 1))]
  · rw [if_neg hb]
    rw [if_neg (by omega : ¬(dimensionIdx = 0 ∧ b.dims.length = 1))]
    rw [if_neg (by omega : ¬(dimensionIdx = 0))]
    rw [if_neg (by omega : ¬(dimensionIdx = 1))]

/-- Witness for C8 at a concrete 2-dimensional index and dimension index 2. -/
theorem c8_third_dimension_error_witness :
    (2 : Int) ≤ 2 ∧
    stateForSingleDimension (buildPartitionHealthData (fun _ => false)
      [⟨"d0", ["a", "b"]⟩, ⟨"d1", ["x", "y"]⟩]
      [.range2D "a" "b" [("x", "x")]]) 2 "x" none =
      .error "stateForSingleDimension asked for third dimension" :=
  ⟨by decide,
    c8_third_dimension_error (buildPartitionHealthData (fun _ => false)
      [⟨"d0", ["a", "b"]⟩, ⟨"d1", ["x", "y"]⟩]
      [.range2D "a" "b" [("x", "x")]]) 2 "x" none (by decide)⟩

/-- A minimal built index, used as the fetch payload in cache scenarios
(the cache logic never inspects the payload). -/
def emptyHealth : BuiltHealth := buildPartitionHealthData (fun _ => false) [] []

/-- C5: starting from an empty cache, a request for `[A, B]` at hint `h1`
selects only A (the first key without a hint-matching entry) and, once A's
fetch lands, the returned list has exactly A's entry and nothing for B; a
second request selects only B; once both entries exist a third request
selects nothing and returns both entries unchanged. -/
theorem c5_cache_scenario (A B : List String) (h1 : String) (HA HB : BuiltHealth)
    (hAB : A ≠ B) :
    missingKey [] [A, B] h1 = some A ∧
    viewResult (applyFetch [] A h1 HA) [A, B] = [⟨A, h1, HA⟩] ∧
    (∀ e ∈ viewResult (applyFetch [] A h1 HA) [A, B], e.assetKey ≠ B) ∧
    missingKey [⟨A, h1, HA⟩] [A, B] h1 = some B ∧
    missingKey [⟨A, h1, HA⟩, ⟨B, h1, HB⟩] [A, B] h1 = none ∧
    viewResult [⟨A, h1, HA⟩, ⟨B, h1, HB⟩] [A, B] =
      [⟨A, h1, HA⟩, ⟨B, h1, HB⟩] := by
  refine ⟨?_, ?_, ?_, ?_, ?_, ?_⟩ <;>
    simp [missingKey, viewResult, applyFetch, hAB]

/-- Witness for C5 at concrete keys, hint and payloads. -/
theorem c5_cache_scenario_witness :
    (["A"] : List String) ≠ ["B"] ∧
    (missingKey [] [["A"], ["B"]] "h1" = some ["A"] ∧
     viewResult (applyFetch [] ["A"] "h1" emptyHealth) [["A"], ["B"]] =
       [⟨["A"], "h1", emptyHealth⟩] ∧
     (∀ e ∈ viewResult (applyFetch [] ["A"] "h1" emptyHealth) [["A"], ["B"]],
       e.assetKey ≠ ["B"]) ∧
     missingKey [⟨["A"], "h1", emptyHealth⟩] [["A"], ["B"]] "h1" = some ["B"] ∧
     missingKey [⟨["A"], "h1", emptyHealth⟩, ⟨["B"], "h1", emptyHealth⟩]
       [["A"], ["B"]] "h1" = none ∧
     viewResult [⟨["A"], "h1", emptyHealth⟩, ⟨["B"], "h1", emptyHealth⟩]
       [["A"], ["B"]] =
       [⟨["A"], "h1", emptyHealth⟩, ⟨["B"], "h1", emptyHealth⟩]) :=
  ⟨by decide, c5_cache_scenario ["A"] ["B"] "h1" emptyHealth emptyHealth (by decide)⟩

/-- C6: with A cached at hint `h1`, a request at a different hint `h2`
selects A for refetch, and the value returned to the caller (the filtered
`result` state, which only a fetch completion mutates) is still the old
entry tagged `h1` — a previously loaded key is never reported as absent
during its own refresh. -/
theorem c6_stale_entry_returned (A : List String) (h1 h2 : String) (HA : BuiltHealth)
    (hne : h1 ≠ h2) :
    missingKey [⟨A, h1, HA⟩] [A] h2 = some A ∧
    viewResult [⟨A, h1, HA⟩] [A] = [⟨A, h1, HA⟩] := by
  constructor <;> simp [missingKey, viewResult, hne]

/-- Witness for C6 at concrete key, hints and payload. -/
theorem c6_stale_entry_returned_witness :
    ("h1" : String) ≠ "h2" ∧
    (missingKey [⟨["A"], "h1", emptyHealth⟩] [["A"]] "h2" = some ["A"] ∧
     viewResult [⟨["A"], "h1", emptyHealth⟩] [["A"]] =
       [⟨["A"], "h1", emptyHealth⟩]) :=
  ⟨by decide, c6_stale_entry_returned ["A"] "h1" "h2" emptyHealth (by decide)⟩

/-- C2 counterexample: a valid execution with two overlapping in-flight
fetches for the same key — issued at hint `h1`, then at hint `h2`; the
`h2` response resolves first, then the stale `h1` response resolves and
overwrites the entry, leaving the cache tagged with the older hint.  The
completion closure performs no staleness check, so the stale response is
not discarded. -/
theorem c2_counterexample :
    ("h1" : String) ≠ "h2" ∧
    CacheStep ⟨[], []⟩ ⟨[], [(["A"], "h1")]⟩ ∧
    CacheStep ⟨[], [(["A"], "h1")]⟩ ⟨[], [(["A"], "h1"), (["A"], "h2")]⟩ ∧
    CacheStep ⟨[], [(["A"], "h1"), (["A"], "h2")]⟩
      ⟨[⟨["A"], "h2", emptyHealth⟩], [(["A"], "h1")]⟩ ∧
    CacheStep ⟨[⟨["A"], "h2", emptyHealth⟩], [(["A"], "h1")]⟩
      ⟨[⟨["A"], "h1", emptyHealth⟩], []⟩ ∧
    ([⟨["A"], "h1", emptyHealth⟩] : List CacheEntry).map (fun e => e.fetchedAt) =
      ["h1"] := by
  refine ⟨by decide, ?_, ?_, ?_, ?_, rfl⟩
  · exact CacheStep.issue ⟨[], []⟩ [["A"]] "h1" ["A"] rfl
  · exact CacheStep.issue ⟨[], [(["A"], "h1")]⟩ [["A"]] "h2" ["A"] rfl
  · exact CacheStep.resolve ⟨[], [(["A"], "h1"), (["A"], "h2")]⟩ ["A"] "h2"
      emptyHealth (by simp)
  · exact CacheStep.resolve ⟨[⟨["A"], "h2", emptyHealth⟩], [(["A"], "h1")]⟩
      ["A"] "h1" emptyHealth (by simp)

/-- C2 (amended): the fetch-completion step stores the resolving request's
result unconditionally — the entry for a key after any completion is
exactly that completion's, regardless of issue order, so a stale response
is not discarded and can overwrite a newer entry.  However, the stored
hint then differs from the caller's current hint, so the very next request
for that key selects it for refetch again. -/
theorem c2_last_resolved_wins (result : List CacheEntry) (k : List String)
    (hOld hNew : String) (health : BuiltHealth) (hne : hOld ≠ hNew) :
    (applyFetch result k hOld health).filter (fun r => decide (r.assetKey = k)) =
      [⟨k, hOld, health⟩] ∧
    missingKey (applyFetch result k hOld health) [k] hNew = some k := by
  constructor
  · simp only [applyFetch, List.filter_append, List.filter_filter]
    have h1 : (result.filter fun a =>
        decide (a.assetKey = k) && !decide (a.assetKey = k)) = [] := by
      simp
    have h2 : (([⟨k, hOld, health⟩] : List CacheEntry).filter
        (fun r => decide (r.assetKey = k))) = [⟨k, hOld, health⟩] := by
      simp
    rw [h1, h2, List.nil_append]
  · have hany : ((applyFetch result k hOld health).any fun r =>
        decide (r.assetKey = k) && decide (r.fetchedAt = hNew)) = false := by
      rw [List.any_eq_false]
      intro r hr
      rcases List.mem_append.1 hr with hf | he
      · have hne' := (List.mem_filter.1 hf).2
        simp only [Bool.not_eq_true', decide_eq_false_iff_not] at hne'
        simp [hne']
      · simp only [List.mem_singleton] at he
        subst he
        simp [hne]
    simp [missingKey, hany]

/-- Witness for C2's amended theorem at a concrete overwrite: after the
stale `h1` response lands, the next request at hint `h2` refetches. -/
theorem c2_last_resolved_wins_witness :
    ("h1" : String) ≠ "h2" ∧
    ((applyFetch [⟨["A"], "h2", emptyHealth⟩] ["A"] "h1" emptyHealth).filter
        (fun r => decide (r.assetKey = ["A"])) =
      [⟨["A"], "h1", emptyHealth⟩] ∧
     missingKey (applyFetch [⟨["A"], "h2", emptyHealth⟩] ["A"] "h1" emptyHealth)
       [["A"]] "h2" = some ["A"]) :=
  ⟨by decide, c2_last_resolved_wins [⟨["A"], "h2", emptyHealth⟩] ["A"] "h1" "h2"
    emptyHealth (by decide)⟩

/-- The fetch-completion update preserves key uniqueness: it first removes
every entry whose key equals the fetched key, then appends the one new
entry. -/
theorem nodup_applyFetch (l : List CacheEntry) (k : List String) (hint : String)
    (health : BuiltHealth) (h : (l.map fun e => e.assetKey).Nodup) :
    ((applyFetch l k hint health).map fun e => e.assetKey).Nodup := by
  unfold applyFetch
  rw [List.map_append]
  refine List.Nodup.append ?_ ?_ ?_
  · exact h.sublist ((List.filter_sublist l).map fun e => e.assetKey)
  · simp
  · intro a ha hb
    simp only [List.mem_singleton, List.map_cons, List.map_nil] at hb
    rcases List.mem_map.1 ha with ⟨e, he, rfl⟩
    have := (List.mem_filter.1 he).2
    simp only [Bool.not_eq_true', decide_eq_false_iff_not] at this
    exact this hb

/-- C10: in every reachable cache state, the stored entry list has at most
one entry per distinct asset key (structural key equality): issuing a
fetch leaves the list unchanged, and every fetch completion removes any
entry with the fetched key before appending the new one. -/
theorem c10_unique_keys {s : CacheState} (h : Reachable s) :
    (s.result.map fun e => e.assetKey).Nodup := by
  induction h with
  | init => simp
  | step _ hstep ih =>
    cases hstep with
    | issue assetKeys hint k hmk => exact ih
    | resolve k hint health hmem => exact nodup_applyFetch _ k hint health ih

/-- Witness for C10 at a concrete reachable state obtained by issuing and
resolving one fetch. -/
theorem c10_unique_keys_witness :
    Reachable ⟨[⟨["A"], "h1", emptyHealth⟩], []⟩ ∧
    (([⟨["A"], "h1", emptyHealth⟩] : List CacheEntry).map
      fun e => e.assetKey).Nodup := by
  have hr : Reachable ⟨[⟨["A"], "h1", emptyHealth⟩], []⟩ :=
    Reachable.step
      (Reachable.step Reachable.init
        (CacheStep.issue ⟨[], []⟩ [["A"]] "h1" ["A"] rfl))
      (CacheStep.resolve ⟨[], [(["A"], "h1")]⟩ ["A"] "h1" emptyHealth (by simp))
  exact ⟨hr, c10_unique_keys hr⟩

/-- All decoded range boundary keys resolved to non-negative indices
(the hypothesis of C7). -/
def boundsNonneg (rs : List Range) : Prop :=
  ∀ r ∈ rs, (0 ≤ r.start.idx ∧ 0 ≤ r.stop.idx) ∧
    ∀ sr ∈ r.subranges.getD [], 0 ≤ sr.start.idx ∧ 0 ≤ sr.stop.idx

instance (rs : List Range) : Decidable (boundsNonneg rs) := by
  unfold boundsNonneg; infer_instance

/-- Every decoded range carries a secondary range list, as in an index
built from a purely 2-dimensional payload. -/
def allHaveSubranges (rs : List Range) : Prop :=
  ∀ r ∈ rs, r.subranges.isSome = true

instance (rs : List Range) : Decidable (allHaveSubranges rs) := by
  unfold allHaveSubranges; infer_instance

/-- Unfolding of `stateForSingleDimension` at dimension 0 for a
non-inverted index. -/
theorem stateForSingleDimension_dim0 (b : BuiltHealth) (hinv : b.inverted = false)
    (key : String) (otherKeys : Option (List String)) :
    stateForSingleDimension b 0 key otherKeys =
      if b.dims.length = 1 then
        .ok (stateForKeyRangeOrdering b.dims b.ranges [key])
      else
        match otherKeys with
        | none =>
          match b.ranges.find? (fun r =>
              decide (r.start.idx ≤ indexOf (dimGet b.dims 0).partitionKeys key) &&
              decide (r.stop.idx ≥ indexOf (dimGet b.dims 0).partitionKeys key)) with
          | some d0Range => .ok d0Range.value
          | none => .ok .MISSING
        | some keys => .ok (mergedStates (keys.map fun k =>
            stateForKeyRangeOrdering b.dims b.ranges [key, k])) := by
  unfold stateForSingleDimension
  rw [if_neg (by simp [hinv] : ¬b.inverted = true)]
  by_cases hl : b.dims.length = 1
  · rw [if_pos (⟨rfl, hl⟩ : (0 : Int) = 0 ∧ b.dims.length = 1), if_pos hl]
  · rw [if_neg (fun hand => hl hand.2), if_pos (rfl : (0 : Int) = 0), if_neg hl]

/-- Unfolding of `stateForSingleDimension` at dimension 1 for a
non-inverted index. -/
theorem stateForSingleDimension_dim1 (b : BuiltHealth) (hinv : b.inverted = false)
    (key : String) (otherKeys : Option (List String)) :
    stateForSingleDimension b 1 key otherKeys =
      match filterMatches (indexOf (dimGet b.dims 1).partitionKeys key) b.ranges with
      | .error e => .error e
      | .ok ms =>
        if (match otherKeys.map (fun keys => keys.map fun k =>
              indexOf (dimGet b.dims 0).partitionKeys k) with
            | none => ms.length == b.ranges.length
            | some idxs => idxs.all fun i =>
                ms.any fun r => decide (r.start.idx ≤ i) && decide (r.stop.idx ≥ i)) =
            true
        then .ok .SUCCESS
        else if ms.length > 0 then .ok .SUCCESS_MISSING
        else .ok .MISSING := by
  unfold stateForSingleDimension
  rw [if_neg (by simp [hinv] : ¬b.inverted = true)]
  rw [if_neg (by omega : ¬((1 : Int) = 0 ∧ b.dims.length = 1))]
  rw [if_neg (by omega : ¬(1 : Int) = 0)]
  rw [if_pos (rfl : (1 : Int) = 1)]
  dsimp only
  cases filterMatches (indexOf (dimGet b.dims 1).partitionKeys key) b.ranges with
  | error e => rfl
  | ok ms => rfl

/-- A point query whose first (primary-order) key is absent resolves it to
index −1; with non-negative range starts no range contains −1, so the
query answers MISSING. -/
theorem stateForKeyRangeOrdering_head_not_mem (dims : List Dimension)
    (rs : List Range) (hstart : ∀ r ∈ rs, 0 ≤ r.start.idx) (k0 : String)
    (ks : List String) (hk : k0 ∉ (dimGet dims 0).partitionKeys) :
    stateForKeyRangeOrdering dims rs (k0 :: ks) = .MISSING := by
  unfold stateForKeyRangeOrdering
  dsimp only
  have h0 : (keyIndexes dims (k0 :: ks))[0]? =
      some (indexOf (dimGet dims 0).partitionKeys k0) := by
    simp [keyIndexes]
  rw [h0, indexOf_eq_neg_one_of_not_mem hk]
  have hfind : rs.find? (fun r => containsIdxO r (some (-1))) = none := by
    rw [List.find?_eq_none]
    intro r hr
    have := hstart r hr
    simp only [containsIdxO_some, containsB, Bool.and_eq_true, decide_eq_true_eq,
      ge_iff_le, not_and]
    intro hle
    omega
  rw [hfind]

/-- A two-key point query whose second key is absent, on ranges that all
carry secondary lists with non-negative starts, answers MISSING. -/
theorem stateForKeyRangeOrdering_snd_not_mem (dims : List Dimension)
    (rs : List Range) (hb : boundsNonneg rs) (h2d : allHaveSubranges rs)
    (k0 k1 : String) (hk1 : k1 ∉ (dimGet dims 1).partitionKeys) :
    stateForKeyRangeOrdering dims rs [k0, k1] = .MISSING := by
  rw [stateForKeyRangeOrdering_pair]
  cases hf : rs.find? (fun r =>
      containsB r (indexOf (dimGet dims 0).partitionKeys k0)) with
  | none => rfl
  | some r0 =>
    have hr0 := List.mem_of_find?_eq_some hf
    obtain ⟨subs, hs⟩ := Option.isSome_iff_exists.1 (h2d r0 hr0)
    dsimp only
    rw [hs]
    dsimp only
    have hfs : subs.find? (fun r =>
        containsB r (indexOf (dimGet dims 1).partitionKeys k1)) = none := by
      rw [List.find?_eq_none]
      intro sr hsr
      have hb' := ((hb r0 hr0).2 sr (by rw [hs]; simpa using hsr)).1
      rw [indexOf_eq_neg_one_of_not_mem hk1]
      simp only [containsB, Bool.and_eq_true, decide_eq_true_eq, ge_iff_le, not_and]
      intro hle
      omega
    rw [hfs]

/-- The (spec-modelled) merge of a non-empty list of MISSING states is
MISSING. -/
theorem mergedStates_all_missing {states : List PartitionState}
    (hne : states ≠ []) (hall : ∀ s ∈ states, s = PartitionState.MISSING) :
    mergedStates states = .MISSING := by
  unfold mergedStates
  rw [if_neg, if_pos]
  · exact List.all_eq_true.2 fun s hs => by simp [hall s hs]
  · intro hsucc
    cases states with
    | nil => exact hne rfl
    | cons a rest =>
      have h1 := List.all_eq_true.1 hsucc a (by simp)
      have h2 := hall a (by simp)
      simp only [decide_eq_true_eq] at h1
      rw [h2] at h1
      cases h1

/-- With every range carrying a secondary list whose starts are
non-negative, no range matches dimension-1 index −1. -/
theorem filterMatches_neg_one {rs : List Range} (h2d : allHaveSubranges rs)
    (hb : boundsNonneg rs) : filterMatches (-1) rs = .ok [] := by
  induction rs with
  | nil => rfl
  | cons a rest ih =>
    obtain ⟨subs, hs⟩ := Option.isSome_iff_exists.1 (h2d a (by simp))
    have ih' := ih (fun r hr => h2d r (by simp [hr])) (fun r hr => hb r (by simp [hr]))
    have hany : (subs.any fun sr =>
        decide (sr.start.idx ≤ -1) && decide (sr.stop.idx ≥ -1)) = false := by
      rw [List.any_eq_false]
      intro sr hsr
      have := (((hb a (by simp)).2) sr (by rw [hs]; simpa using hsr)).1
      simp only [Bool.and_eq_true, decide_eq_true_eq, ge_iff_le, not_and]
      intro hle
      omega
    unfold filterMatches
    rw [show subrangesBang a = .ok subs from by unfold subrangesBang; rw [hs]]
    dsimp only
    rw [ih']
    dsimp only
    rw [hany]
    rfl

/-- C7 counterexample: on a 2-dimensional index with an empty range list
(vacuously, all decoded boundary indices are non-negative), querying
dimension 1 with a key that does not exist returns SUCCESS — not MISSING —
because the all-primary-ranges-match comparison `0 === ranges.length` is
vacuously true. -/
theorem c7_counterexample :
    "zz" ∉ (dimGet [⟨"d0", ["a"]⟩, ⟨"d1", ["x"]⟩] 1).partitionKeys ∧
    (buildPartitionHealthData (fun _ => false)
      [⟨"d0", ["a"]⟩, ⟨"d1", ["x"]⟩] []).ranges = [] ∧
    stateForSingleDimension (buildPartitionHealthData (fun _ => false)
      [⟨"d0", ["a"]⟩, ⟨"d1", ["x"]⟩] []) 1 "zz" none = .ok .SUCCESS :=
  ⟨by decide, rfl, rfl⟩

/-- C7 (amended): with all decoded boundary indices non-negative, a
partition key absent from its dimension resolves to −1, no range contains
it, and the queries return MISSING rather than failing — provided the
vacuous cases are excluded: a dimension-1 query needs a non-empty primary
range list (respectively a non-empty supplied dimension-0 key set), since
an empty one makes the all-match check vacuously true and yields SUCCESS;
secondary lookups assume every range carries a secondary list, as in any
purely 2-dimensional payload. -/
theorem c7_missing_key_defensive (b : BuiltHealth) (hinv : b.inverted = false)
    (hb : boundsNonneg b.ranges) :
    (∀ k0 ks, k0 ∉ (dimGet b.dims 0).partitionKeys →
      stateForKey b (k0 :: ks) = .MISSING) ∧
    (allHaveSubranges b.ranges → ∀ k0 k1, k1 ∉ (dimGet b.dims 1).partitionKeys →
      stateForKey b [k0, k1] = .MISSING) ∧
    (∀ k, k ∉ (dimGet b.dims 0).partitionKeys →
      stateForSingleDimension b 0 k none = .ok .MISSING) ∧
    (∀ k ks, ks ≠ [] → k ∉ (dimGet b.dims 0).partitionKeys →
      stateForSingleDimension b 0 k (some ks) = .ok .MISSING) ∧
    (allHaveSubranges b.ranges → b.ranges ≠ [] →
      ∀ k, k ∉ (dimGet b.dims 1).partitionKeys →
        stateForSingleDimension b 1 k none = .ok .MISSING) ∧
    (allHaveSubranges b.ranges →
      ∀ k ks, ks ≠ [] → k ∉ (dimGet b.dims 1).partitionKeys →
        stateForSingleDimension b 1 k (some ks) = .ok .MISSING) := by
  have hstart : ∀ r ∈ b.ranges, 0 ≤ r.start.idx := fun r hr => ((hb r hr).1).1
  have hsk : ∀ keys, stateForKey b keys =
      stateForKeyRangeOrdering b.dims b.ranges keys := by
    intro keys
    unfold stateForKey
    rw [if_neg (by simp [hinv] : ¬b.inverted = true)]
  refine ⟨?_, ?_, ?_, ?_, ?_, ?_⟩
  · intro k0 ks hk
    rw [hsk]
    exact stateForKeyRangeOrdering_head_not_mem b.dims b.ranges hstart k0 ks hk
  · intro h2d k0 k1 hk1
    rw [hsk]
    exact stateForKeyRangeOrdering_snd_not_mem b.dims b.ranges hb h2d k0 k1 hk1
  · intro k hk
    rw [stateForSingleDimension_dim0 b hinv k none]
    by_cases hl : b.dims.length = 1
    · rw [if_pos hl,
        stateForKeyRangeOrdering_head_not_mem b.dims b.ranges hstart k [] hk]
    · rw [if_neg hl]
      have hfind : b.ranges.find? (fun r =>
          decide (r.start.idx ≤ indexOf (dimGet b.dims 0).partitionKeys k) &&
          decide (r.stop.idx ≥ indexOf (dimGet b.dims 0).partitionKeys k)) = none := by
        rw [indexOf_eq_neg_one_of_not_mem hk, List.find?_eq_none]
        intro r hr
        have := hstart r hr
        simp only [Bool.and_eq_true, decide_eq_true_eq, ge_iff_le, not_and]
        intro hle
        omega
      rw [hfind]
  · intro k ks hne hk
    rw [stateForSingleDimension_dim0 b hinv k (some ks)]
    by_cases hl : b.dims.length = 1
    · rw [if_pos hl,
        stateForKeyRangeOrdering_head_not_mem b.dims b.ranges hstart k [] hk]
    · rw [if_neg hl]
      dsimp only
      have hmrg : mergedStates (ks.map fun o =>
          stateForKeyRangeOrdering b.dims b.ranges [k, o]) = .MISSING := by
        apply mergedStates_all_missing
        · simpa using hne
        · intro s hs
          rcases List.mem_map.1 hs with ⟨o, ho, rfl⟩
          exact stateForKeyRangeOrdering_head_not_mem b.dims b.ranges hstart k [o] hk
      rw [hmrg]
  · intro h2d hner k hk
    rw [stateForSingleDimension_dim1 b hinv k none]
    rw [indexOf_eq_neg_one_of_not_mem hk, filterMatches_neg_one h2d hb]
    dsimp only
    have hlen0 : (0 == b.ranges.length) = false := by
      rw [beq_eq_false_iff_ne]
      intro h0
      exact hner (List.length_eq_zero.1 h0.symm)
    simp only [List.length_nil]
    simp only [hlen0]
    rfl
  · intro h2d k ks hne hk
    rw [stateForSingleDimension_dim1 b hinv k (some ks)]
    rw [indexOf_eq_neg_one_of_not_mem hk, filterMatches_neg_one h2d hb]
    simp only [Option.map_some']
    have hall : ((ks.map fun o => indexOf (dimGet b.dims 0).partitionKeys o).all
        fun i => ([] : List Range).any fun r =>
          decide (r.start.idx ≤ i) && decide (r.stop.idx ≥ i)) = false := by
      cases ks with
      | nil => exact absurd rfl hne
      | cons a rest => simp
    simp only [hall]
    rfl

/-- Witness for C7's amended theorem at a concrete index and the absent
key `"zz"`. -/
theorem c7_missing_key_defensive_witness :
    (buildPartitionHealthData (fun _ => false) [⟨"d0", ["a"]⟩, ⟨"d1", ["x"]⟩]
      [.range2D "a" "a" [("x", "x")]]).inverted = false ∧
    boundsNonneg (buildPartitionHealthData (fun _ => false)
      [⟨"d0", ["a"]⟩, ⟨"d1", ["x"]⟩] [.range2D "a" "a" [("x", "x")]]).ranges ∧
    stateForKey (buildPartitionHealthData (fun _ => false)
      [⟨"d0", ["a"]⟩, ⟨"d1", ["x"]⟩] [.range2D "a" "a" [("x", "x")]])
      ["zz", "x"] = .MISSING :=
  ⟨rfl, by decide,
    (c7_missing_key_defensive (buildPartitionHealthData (fun _ => false)
        [⟨"d0", ["a"]⟩, ⟨"d1", ["x"]⟩] [.range2D "a" "a" [("x", "x")]])
      rfl (by decide)).1 "zz" ["x"] (by decide)⟩

/-- The Boolean filter predicate of the dimension-1 branch: some secondary
range of `r` covers `i`. -/
def rangeMatches (r : Range) (i : Int) : Bool :=
  (r.subranges.getD []).any fun sr =>
    decide (sr.start.idx ≤ i) && decide (sr.stop.idx ≥ i)

theorem rangeMatches_iff_subCovers (r : Range) (i : Int) :
    rangeMatches r i = true ↔ subCovers r i := by
  simp [rangeMatches, subCovers, List.any_eq_true, ge_iff_le]

/-- When every range carries a secondary list, the fallible filter
succeeds and computes an ordinary filter. -/
theorem filterMatches_eq_ok {rs : List Range} (h2d : allHaveSubranges rs) (i : Int) :
    filterMatches i rs = .ok (rs.filter fun r => rangeMatches r i) := by
  induction rs with
  | nil => rfl
  | cons a rest ih =>
    obtain ⟨subs, hs⟩ := Option.isSome_iff_exists.1 (h2d a (by simp))
    have ih' := ih (fun r hr => h2d r (by simp [hr]))
    have hm : rangeMatches a i = (subs.any fun sr =>
        decide (sr.start.idx ≤ i) && decide (sr.stop.idx ≥ i)) := by
      unfold rangeMatches
      rw [hs]
      rfl
    unfold filterMatches
    rw [show subrangesBang a = .ok subs from by unfold subrangesBang; rw [hs]]
    dsimp only
    rw [ih']
    dsimp only
    rw [List.filter_cons, hm]
    cases subs.any fun sr => decide (sr.start.idx ≤ i) && decide (sr.stop.idx ≥ i) with
    | false => rfl
    | true => rfl

/-- A filter keeps every element exactly when its length is unchanged. -/
theorem length_filter_eq_iff {α : Type} {p : α → Bool} {l : List α} :
    (l.filter p).length = l.length ↔ ∀ a ∈ l, p a = true := by
  induction l with
  | nil => simp
  | cons a rest ih =>
    rw [List.filter_cons]
    by_cases hp : p a = true
    · simp [hp, ih]
    · have hle := List.length_filter_le p rest
      rw [if_neg hp, List.length_cons]
      constructor
      · intro h
        exfalso
        omega
      · intro h
        exact absurd (h a (by simp)) hp

/-- Shape of the dimension-1 branch result: SUCCESS on the all-check,
SUCCESS_MISSING on a non-empty match list, MISSING otherwise. -/
theorem dim1_result_characterization (A : Bool) (ms : List Range)
    (res : Except String PartitionState)
    (hres : res = if A = true then .ok .SUCCESS
      else if ms.length > 0 then .ok .SUCCESS_MISSING else .ok .MISSING) :
    (res = .ok .SUCCESS ↔ A = true) ∧
    (res = .ok .SUCCESS_MISSING ↔ A = false ∧ 0 < ms.length) ∧
    (res = .ok .MISSING ↔ A = false ∧ ms.length = 0) := by
  subst hres
  cases A with
  | true =>
    rw [if_pos rfl]
    refine ⟨by simp, by simp, by simp⟩
  | false =>
    rw [if_neg (by simp)]
    by_cases hm : ms.length > 0
    · rw [if_pos hm]
      refine ⟨by simp, by simp [hm], ?_⟩
      simp only [Except.ok.injEq, reduceCtorEq, false_iff, not_and]
      intro h
      omega
    · rw [if_neg hm]
      refine ⟨by simp, ?_, ?_⟩
      · simp only [Except.ok.injEq, reduceCtorEq, false_iff, not_and]
        intro h
        omega
      · simp only [Except.ok.injEq, true_iff]
        exact ⟨trivial, by omega⟩

/-- C4 counterexample: dimensions `d0 = [a,b]`, `d1 = [x,y]`; primary
range `a..a` has a secondary range covering `x`, primary range `b..b`
covers only `y`.  Querying dimension 1 for `x` with supplied key set
`["b"]`: `b`'s containing primary range is not among the matches (no
containing range of any supplied key is), so the claim requires MISSING,
but the source returns SUCCESS_MISSING because the match list is
non-empty. -/
theorem c4_counterexample :
    stateForSingleDimension (buildPartitionHealthData (fun _ => false)
      [⟨"d0", ["a", "b"]⟩, ⟨"d1", ["x", "y"]⟩]
      [.range2D "a" "a" [("x", "x")], .range2D "b" "b" [("y", "y")]])
      1 "x" (some ["b"]) = .ok .SUCCESS_MISSING ∧
    indexOf ["a", "b"] "b" = 1 ∧
    indexOf ["x", "y"] "x" = 0 ∧
    (∀ r ∈ (buildPartitionHealthData (fun _ => false)
        [⟨"d0", ["a", "b"]⟩, ⟨"d1", ["x", "y"]⟩]
        [.range2D "a" "a" [("x", "x")], .range2D "b" "b" [("y", "y")]]).ranges,
      (r.start.idx ≤ 1 ∧ 1 ≤ r.stop.idx) → ¬subCovers r 0) :=
  ⟨rfl, by decide, by decide, by decide⟩

/-- C4 (amended): for a 2-dimensional, non-inverted index,
`stateForSingleDimension(1, key, d0Keys)` with a supplied dimension-0 key
set is SUCCESS iff every supplied key's index lies in some primary range
that has a secondary range covering `key`'s index; it is MISSING iff no
primary range at all has a covering secondary range (the match set is
empty); otherwise SUCCESS_MISSING — in particular a supplied key whose
containing range is not among the matches yields SUCCESS_MISSING, not
MISSING, as long as some range matches.  With no key set, the same
all/some/none logic runs over the count of matching primary ranges versus
all primary ranges. -/
theorem c4_dim1_characterization (b : BuiltHealth) (hinv : b.inverted = false)
    (h2d : allHaveSubranges b.ranges) (key : String) :
    ((stateForSingleDimension b 1 key none = .ok .SUCCESS ↔
        ∀ r ∈ b.ranges, subCovers r (indexOf (dimGet b.dims 1).partitionKeys key)) ∧
      (stateForSingleDimension b 1 key none = .ok .SUCCESS_MISSING ↔
        ¬(∀ r ∈ b.ranges,
            subCovers r (indexOf (dimGet b.dims 1).partitionKeys key)) ∧
        (∃ r ∈ b.ranges, subCovers r (indexOf (dimGet b.dims 1).partitionKeys key))) ∧
      (stateForSingleDimension b 1 key none = .ok .MISSING ↔
        ¬(∀ r ∈ b.ranges,
            subCovers r (indexOf (dimGet b.dims 1).partitionKeys key)) ∧
        ¬(∃ r ∈ b.ranges,
            subCovers r (indexOf (dimGet b.dims 1).partitionKeys key)))) ∧
    (∀ ks : List String,
      (stateForSingleDimension b 1 key (some ks) = .ok .SUCCESS ↔
        ∀ o ∈ ks, ∃ r ∈ b.ranges,
          subCovers r (indexOf (dimGet b.dims 1).partitionKeys key) ∧
          r.start.idx ≤ indexOf (dimGet b.dims 0).partitionKeys o ∧
          indexOf (dimGet b.dims 0).partitionKeys o ≤ r.stop.idx) ∧
      (stateForSingleDimension b 1 key (some ks) = .ok .SUCCESS_MISSING ↔
        ¬(∀ o ∈ ks, ∃ r ∈ b.ranges,
            subCovers r (indexOf (dimGet b.dims 1).partitionKeys key) ∧
            r.start.idx ≤ indexOf (dimGet b.dims 0).partitionKeys o ∧
            indexOf (dimGet b.dims 0).partitionKeys o ≤ r.stop.idx) ∧
        (∃ r ∈ b.ranges, subCovers r (indexOf (dimGet b.dims 1).partitionKeys key))) ∧
      (stateForSingleDimension b 1 key (some ks) = .ok .MISSING ↔
        ¬(∀ o ∈ ks, ∃ r ∈ b.ranges,
            subCovers r (indexOf (dimGet b.dims 1).partitionKeys key) ∧
            r.start.idx ≤ indexOf (dimGet b.dims 0).partitionKeys o ∧
            indexOf (dimGet b.dims 0).partitionKeys o ≤ r.stop.idx) ∧
        ¬(∃ r ∈ b.ranges,
            subCovers r (indexOf (dimGet b.dims 1).partitionKeys key)))) := by
  have hms := filterMatches_eq_ok h2d (indexOf (dimGet b.dims 1).partitionKeys key)
  have hforall : (((b.ranges.filter fun r =>
      rangeMatches r (indexOf (dimGet b.dims 1).partitionKeys key)).length ==
        b.ranges.length) = true) ↔
      ∀ r ∈ b.ranges, subCovers r (indexOf (dimGet b.dims 1).partitionKeys key) := by
    rw [beq_iff_eq, length_filter_eq_iff]
    constructor
    · intro h r hr
      exact (rangeMatches_iff_subCovers r _).1 (h r hr)
    · intro h r hr
      exact (rangeMatches_iff_subCovers r _).2 (h r hr)
  have hexists : (0 < (b.ranges.filter fun r =>
      rangeMatches r (indexOf (dimGet b.dims 1).partitionKeys key)).length) ↔
      ∃ r ∈ b.ranges, subCovers r (indexOf (dimGet b.dims 1).partitionKeys key) := by
    rw [List.length_pos_iff_exists_mem]
    constructor
    · rintro ⟨r, hr⟩
      have hm := List.mem_filter.1 hr
      exact ⟨r, hm.1, (rangeMatches_iff_subCovers r _).1 hm.2⟩
    · rintro ⟨r, hr, hc⟩
      exact ⟨r, List.mem_filter.2 ⟨hr, (rangeMatches_iff_subCovers r _).2 hc⟩⟩
  have hzero : ((b.ranges.filter fun r =>
      rangeMatches r (indexOf (dimGet b.dims 1).partitionKeys key)).length = 0) ↔
      ¬∃ r ∈ b.ranges, subCovers r (indexOf (dimGet b.dims 1).partitionKeys key) := by
    rw [← hexists]
    omega
  constructor
  · have hc := dim1_result_characterization
      ((b.ranges.filter fun r =>
        rangeMatches r (indexOf (dimGet b.dims 1).partitionKeys key)).length ==
          b.ranges.length)
      (b.ranges.filter fun r =>
        rangeMatches r (indexOf (dimGet b.dims 1).partitionKeys key))
      (stateForSingleDimension b 1 key none)
      (by rw [stateForSingleDimension_dim1 b hinv key none, hms]; rfl)
    refine ⟨hc.1.trans hforall, ?_, ?_⟩
    · exact hc.2.1.trans
        (and_congr (by rw [Bool.eq_false_iff]; exact not_congr hforall) hexists)
    · exact hc.2.2.trans
        (and_congr (by rw [Bool.eq_false_iff]; exact not_congr hforall) hzero)
  · intro ks
    have hall : (((ks.map fun o => indexOf (dimGet b.dims 0).partitionKeys o).all
        fun i => (b.ranges.filter fun r =>
          rangeMatches r (indexOf (dimGet b.dims 1).partitionKeys key)).any
            fun r => decide (r.start.idx ≤ i) && decide (r.stop.idx ≥ i)) = true) ↔
        ∀ o ∈ ks, ∃ r ∈ b.ranges,
          subCovers r (indexOf (dimGet b.dims 1).partitionKeys key) ∧
          r.start.idx ≤ indexOf (dimGet b.dims 0).partitionKeys o ∧
          indexOf (dimGet b.dims 0).partitionKeys o ≤ r.stop.idx := by
      rw [List.all_eq_true, List.forall_mem_map]
      constructor
      · intro h o ho
        have h2 := h o ho
        rw [List.any_eq_true] at h2
        rcases h2 with ⟨r, hrmem, hr⟩
        have hm := List.mem_filter.1 hrmem
        simp only [Bool.and_eq_true, decide_eq_true_eq, ge_iff_le] at hr
        exact ⟨r, hm.1, (rangeMatches_iff_subCovers r _).1 hm.2, hr.1, hr.2⟩
      · intro h o ho
        rcases h o ho with ⟨r, hrmem, hc, h1, h2⟩
        rw [List.any_eq_true]
        refine ⟨r, List.mem_filter.2 ⟨hrmem, (rangeMatches_iff_subCovers r _).2 hc⟩, ?_⟩
        simp [h1, h2]
    have hc := dim1_result_characterization
      ((ks.map fun o => indexOf (dimGet b.dims 0).partitionKeys o).all
        fun i => (b.ranges.filter fun r =>
          rangeMatches r (indexOf (dimGet b.dims 1).partitionKeys key)).any
            fun r => decide (r.start.idx ≤ i) && decide (r.stop.idx ≥ i))
      (b.ranges.filter fun r =>
        rangeMatches r (indexOf (dimGet b.dims 1).partitionKeys key))
      (stateForSingleDimension b 1 key (some ks))
      (by rw [stateForSingleDimension_dim1 b hinv key (some ks), hms]; rfl)
    refine ⟨hc.1.trans hall, ?_, ?_⟩
    · exact hc.2.1.trans
        (and_congr (by rw [Bool.eq_false_iff]; exact not_congr hall) hexists)
    · exact hc.2.2.trans
        (and_congr (by rw [Bool.eq_false_iff]; exact not_congr hall) hzero)

/-- Witness for C4's amended theorem at a concrete index: supplied key
`"a"` is covered, so the dimension-1 query for `"x"` answers SUCCESS. -/
theorem c4_dim1_characterization_witness :
    (buildPartitionHealthData (fun _ => false)
      [⟨"d0", ["a", "b"]⟩, ⟨"d1", ["x", "y"]⟩]
      [.range2D "a" "a" [("x", "x")], .range2D "b" "b" [("y", "y")]]).inverted =
        false ∧
    allHaveSubranges (buildPartitionHealthData (fun _ => false)
      [⟨"d0", ["a", "b"]⟩, ⟨"d1", ["x", "y"]⟩]
      [.range2D "a" "a" [("x", "x")], .range2D "b" "b" [("y", "y")]]).ranges ∧
    stateForSingleDimension (buildPartitionHealthData (fun _ => false)
      [⟨"d0", ["a", "b"]⟩, ⟨"d1", ["x", "y"]⟩]
      [.range2D "a" "a" [("x", "x")], .range2D "b" "b" [("y", "y")]])
      1 "x" (some ["a"]) = .ok .SUCCESS :=
  ⟨rfl, by decide,
    ((c4_dim1_characterization (buildPartitionHealthData (fun _ => false)
        [⟨"d0", ["a", "b"]⟩, ⟨"d1", ["x", "y"]⟩]
        [.range2D "a" "a" [("x", "x")], .range2D "b" "b" [("y", "y")]])
      rfl (by decide) "x").2 ["a"]).1.mpr (by decide)⟩

/-- The wire payload that declares the entire key space as one full range
(1D: one range from the first to the last key of dimension 0; 2D: one
primary range spanning dimension 0 with one secondary range spanning
dimension 1). -/
def fullRangePayload (dims : List Dimension) : List MaterializedRange :=
  if dims.length = 1 then
    [.range1D ((dimGet dims 0).partitionKeys.headD "")
      ((dimGet dims 0).partitionKeys.getLastD "")]
  else
    [.range2D ((dimGet dims 0).partitionKeys.headD "")
      ((dimGet dims 0).partitionKeys.getLastD "")
      [((dimGet dims 1).partitionKeys.headD "",
        (dimGet dims 1).partitionKeys.getLastD "")]]

/-- Unfolding of the point query at a single-key tuple: there is no
second index, so a comparison against it is false and a range with
secondary ranges answers MISSING. -/
theorem stateForKeyRangeOrdering_single (dims : List Dimension) (rs : List Range)
    (k : String) :
    stateForKeyRangeOrdering dims rs [k] =
      match rs.find? (fun r => containsB r (indexOf (dimGet dims 0).partitionKeys k)) with
      | none => .MISSING
      | some d0Range =>
        match d0Range.subranges with
        | none => .SUCCESS
        | some subs =>
          match subs.find? (fun r => containsIdxO r none) with
          | some _ => .SUCCESS
          | none => .MISSING := rfl

/-- The first key of a non-empty sequence resolves to index 0. -/
theorem indexOf_headD {l : List String} (hne : l ≠ []) (d : String) :
    indexOf l (l.headD d) = 0 := by
  obtain ⟨a, t, h⟩ := List.exists_cons_of_ne_nil hne
  rw [h, List.headD_cons, indexOf_cons_self]

/-- C9: building an index from the full-range payload yields SUCCESS for
every valid key combination (1- and 2-dimensional cases) and SUCCESS for
`stateForSingleDimension(0, k)` on every dimension-0 key, given non-empty,
duplicate-free key sequences and declared order matching range order. -/
theorem c9_full_range_round_trip (isTS : Dimension → Bool) (dims : List Dimension)
    (hlen : dims.length = 1 ∨ dims.length = 2)
    (hinv : isTS (dimGet dims 1) = false)
    (hd0 : (dimGet dims 0).partitionKeys ≠ [] ∧ (dimGet dims 0).partitionKeys.Nodup)
    (hd1 : dims.length = 2 →
      (dimGet dims 1).partitionKeys ≠ [] ∧ (dimGet dims 1).partitionKeys.Nodup) :
    ((dims.length = 1 → ∀ k ∈ (dimGet dims 0).partitionKeys,
        stateForKey (buildPartitionHealthData isTS dims (fullRangePayload dims)) [k]
          = .SUCCESS) ∧
      (dims.length = 2 → ∀ k0 ∈ (dimGet dims 0).partitionKeys,
        ∀ k1 ∈ (dimGet dims 1).partitionKeys,
        stateForKey (buildPartitionHealthData isTS dims (fullRangePayload dims))
          [k0, k1] = .SUCCESS)) ∧
    (∀ k ∈ (dimGet dims 0).partitionKeys,
      stateForSingleDimension
        (buildPartitionHealthData isTS dims (fullRangePayload dims)) 0 k none =
        .ok .SUCCESS) := by
  have hb : buildPartitionHealthData isTS dims (fullRangePayload dims) =
      ⟨false, dims, dims, addIndexes dims (fullRangePayload dims)⟩ := by
    simp [buildPartitionHealthData, hinv]
  have istart0 : indexOf (dimGet dims 0).partitionKeys
      ((dimGet dims 0).partitionKeys.headD "") = 0 := indexOf_headD hd0.1 ""
  have ilast0 : indexOf (dimGet dims 0).partitionKeys
      ((dimGet dims 0).partitionKeys.getLastD "") =
      ((dimGet dims 0).partitionKeys.length : Int) - 1 :=
    indexOf_getLastD_of_nodup hd0.2 hd0.1 ""
  -- The decoded 1D range.
  have hdec1 : decodeRange dims (.range1D ((dimGet dims 0).partitionKeys.headD "")
      ((dimGet dims 0).partitionKeys.getLastD "")) =
      Range.mk
        ⟨(dimGet dims 0).partitionKeys.headD "",
          indexOf (dimGet dims 0).partitionKeys ((dimGet dims 0).partitionKeys.headD "")⟩
        ⟨(dimGet dims 0).partitionKeys.getLastD "",
          indexOf (dimGet dims 0).partitionKeys ((dimGet dims 0).partitionKeys.getLastD "")⟩
        .SUCCESS none := rfl
  have hcont0 : ∀ k ∈ (dimGet dims 0).partitionKeys,
      (decide (indexOf (dimGet dims 0).partitionKeys
          ((dimGet dims 0).partitionKeys.headD "") ≤
            indexOf (dimGet dims 0).partitionKeys k) &&
        decide (indexOf (dimGet dims 0).partitionKeys
          ((dimGet dims 0).partitionKeys.getLastD "") ≥
            indexOf (dimGet dims 0).partitionKeys k)) = true := by
    intro k hk
    have h1 := indexOf_nonneg_of_mem hk
    have h2 := indexOf_lt_length_of_mem hk
    rw [istart0, ilast0]
    simp only [Bool.and_eq_true, decide_eq_true_eq, ge_iff_le]
    omega
  refine ⟨⟨?_, ?_⟩, ?_⟩
  · intro hl1 k hk
    rw [hb]
    show stateForKeyRangeOrdering dims (addIndexes dims (fullRangePayload dims)) [k]
      = .SUCCESS
    rw [show fullRangePayload dims = [.range1D ((dimGet dims 0).partitionKeys.headD "")
        ((dimGet dims 0).partitionKeys.getLastD "")] from by
      unfold fullRangePayload; rw [if_pos hl1]]
    show stateForKeyRangeOrdering dims
      [decodeRange dims (.range1D ((dimGet dims 0).partitionKeys.headD "")
        ((dimGet dims 0).partitionKeys.getLastD ""))] [k] = .SUCCESS
    rw [stateForKeyRangeOrdering_single]
    rw [List.find?_cons_of_pos _ (by rw [hdec1]; exact hcont0 k hk)]
    rw [hdec1]
    rfl
  · intro hl2 k0 hk0 k1 hk1
    obtain ⟨hne1, hnd1⟩ := hd1 hl2
    have istart1 : indexOf (dimGet dims 1).partitionKeys
        ((dimGet dims 1).partitionKeys.headD "") = 0 := indexOf_headD hne1 ""
    have ilast1 : indexOf (dimGet dims 1).partitionKeys
        ((dimGet dims 1).partitionKeys.getLastD "") =
        ((dimGet dims 1).partitionKeys.length : Int) - 1 :=
      indexOf_getLastD_of_nodup hnd1 hne1 ""
    have hfp : fullRangePayload dims =
        [.range2D ((dimGet dims 0).partitionKeys.headD "")
          ((dimGet dims 0).partitionKeys.getLastD "")
          [((dimGet dims 1).partitionKeys.headD "",
            (dimGet dims 1).partitionKeys.getLastD "")]] := by
      unfold fullRangePayload
      rw [if_neg (by omega)]
    have hdec2 : decodeRange dims
        (.range2D ((dimGet dims 0).partitionKeys.headD "")
          ((dimGet dims 0).partitionKeys.getLastD "")
          [((dimGet dims 1).partitionKeys.headD "",
            (dimGet dims 1).partitionKeys.getLastD "")]) =
        Range.mk
          ⟨(dimGet dims 0).partitionKeys.headD "",
            indexOf (dimGet dims 0).partitionKeys
              ((dimGet dims 0).partitionKeys.headD "")⟩
          ⟨(dimGet dims 0).partitionKeys.getLastD "",
            indexOf (dimGet dims 0).partitionKeys
              ((dimGet dims 0).partitionKeys.getLastD "")⟩
          .SUCCESS
          (some [Range.mk
            ⟨(dimGet dims 1).partitionKeys.headD "",
              indexOf (dimGet dims 1).partitionKeys
                ((dimGet dims 1).partitionKeys.headD "")⟩
            ⟨(dimGet dims 1).partitionKeys.getLastD "",
              indexOf (dimGet dims 1).partitionKeys
                ((dimGet dims 1).partitionKeys.getLastD "")⟩
            .SUCCESS none]) := by
      unfold decodeRange
      dsimp only [List.map_cons, List.map_nil, List.headD_cons, List.length_cons,
        List.length_nil, Range.start_mk, Range.stop_mk]
      rw [if_pos ⟨rfl, istart1, ilast1⟩]
    rw [hb]
    show stateForKeyRangeOrdering dims (addIndexes dims (fullRangePayload dims))
      [k0, k1] = .SUCCESS
    rw [hfp]
    show stateForKeyRangeOrdering dims
      [decodeRange dims (.range2D ((dimGet dims 0).partitionKeys.headD "")
        ((dimGet dims 0).partitionKeys.getLastD "")
        [((dimGet dims 1).partitionKeys.headD "",
          (dimGet dims 1).partitionKeys.getLastD "")])] [k0, k1] = .SUCCESS
    rw [hdec2, stateForKeyRangeOrdering_pair]
    rw [List.find?_cons_of_pos _ (by exact hcont0 k0 hk0)]
    dsimp only
    rw [Range.subranges_mk]
    dsimp only
    have hcont1 : (decide (indexOf (dimGet dims 1).partitionKeys
          ((dimGet dims 1).partitionKeys.headD "") ≤
            indexOf (dimGet dims 1).partitionKeys k1) &&
        decide (indexOf (dimGet dims 1).partitionKeys
          ((dimGet dims 1).partitionKeys.getLastD "") ≥
            indexOf (dimGet dims 1).partitionKeys k1)) = true := by
      have h1 := indexOf_nonneg_of_mem hk1
      have h2 := indexOf_lt_length_of_mem hk1
      rw [istart1, ilast1]
      simp only [Bool.and_eq_true, decide_eq_true_eq, ge_iff_le]
      omega
    rw [List.find?_cons_of_pos _ (by exact hcont1)]
  · intro k hk
    have hbinv : (buildPartitionHealthData isTS dims (fullRangePayload dims)).inverted
        = false := by rw [hb]
    rw [stateForSingleDimension_dim0 _ hbinv k none, hb]
    dsimp only
    rcases hlen with hl1 | hl2
    · rw [if_pos hl1]
      rw [show fullRangePayload dims =
          [.range1D ((dimGet dims 0).partitionKeys.headD "")
            ((dimGet dims 0).partitionKeys.getLastD "")] from by
        unfold fullRangePayload; rw [if_pos hl1]]
      show Except.ok (stateForKeyRangeOrdering dims
        [decodeRange dims (.range1D ((dimGet dims 0).partitionKeys.headD "")
          ((dimGet dims 0).partitionKeys.getLastD ""))] [k]) =
        Except.ok PartitionState.SUCCESS
      rw [stateForKeyRangeOrdering_single]
      rw [List.find?_cons_of_pos _ (by rw [hdec1]; exact hcont0 k hk)]
      rw [hdec1]
      rfl
    · obtain ⟨hne1, hnd1⟩ := hd1 hl2
      have istart1 : indexOf (dimGet dims 1).partitionKeys
          ((dimGet dims 1).partitionKeys.headD "") = 0 := indexOf_headD hne1 ""
      have ilast1 : indexOf (dimGet dims 1).partitionKeys
          ((dimGet dims 1).partitionKeys.getLastD "") =
          ((dimGet dims 1).partitionKeys.length : Int) - 1 :=
        indexOf_getLastD_of_nodup hnd1 hne1 ""
      have hfp : fullRangePayload dims =
          [.range2D ((dimGet dims 0).partitionKeys.headD "")
            ((dimGet dims 0).partitionKeys.getLastD "")
            [((dimGet dims 1).partitionKeys.headD "",
              (dimGet dims 1).partitionKeys.getLastD "")]] := by
        unfold fullRangePayload
        rw [if_neg (by omega)]
      have hdec2 : decodeRange dims
          (.range2D ((dimGet dims 0).partitionKeys.headD "")
            ((dimGet dims 0).partitionKeys.getLastD "")
            [((dimGet dims 1).partitionKeys.headD "",
              (dimGet dims 1).partitionKeys.getLastD "")]) =
          Range.mk
            ⟨(dimGet dims 0).partitionKeys.headD "",
              indexOf (dimGet dims 0).partitionKeys
                ((dimGet dims 0).partitionKeys.headD "")⟩
            ⟨(dimGet dims 0).partitionKeys.getLastD "",
              indexOf (dimGet dims 0).partitionKeys
                ((dimGet dims 0).partitionKeys.getLastD "")⟩
            .SUCCESS
            (some [Range.mk
              ⟨(dimGet dims 1).partitionKeys.headD "",
                indexOf (dimGet dims 1).partitionKeys
                  ((dimGet dims 1).partitionKeys.headD "")⟩
              ⟨(dimGet dims 1).partitionKeys.getLastD "",
                indexOf (dimGet dims 1).partitionKeys
                  ((dimGet dims 1).partitionKeys.getLastD "")⟩
              .SUCCESS none]) := by
        unfold decodeRange
        dsimp only [List.map_cons, List.map_nil, List.headD_cons, List.length_cons,
          List.length_nil, Range.start_mk, Range.stop_mk]
        rw [if_pos ⟨rfl, istart1, ilast1⟩]
      rw [if_neg (by omega)]
      rw [hfp]
      show (match List.find? (fun r =>
          decide (r.start.idx ≤ indexOf (dimGet dims 0).partitionKeys k) &&
          decide (r.stop.idx ≥ indexOf (dimGet dims 0).partitionKeys k))
          [decodeRange dims (.range2D ((dimGet dims 0).partitionKeys.headD "")
            ((dimGet dims 0).partitionKeys.getLastD "")
            [((dimGet dims 1).partitionKeys.headD "",
              (dimGet dims 1).partitionKeys.getLastD "")])] with
        | some d0Range => Except.ok d0Range.value
        | none => Except.ok PartitionState.MISSING) = Except.ok PartitionState.SUCCESS
      rw [hdec2]
      rw [List.find?_cons_of_pos _ (by exact hcont0 k hk)]
      rfl

/-- Witness for C9 at a concrete 2-dimensional dimension list. -/
theorem c9_full_range_round_trip_witness :
    (([⟨"d0", ["a", "b"]⟩, ⟨"d1", ["x", "y"]⟩] : List Dimension).length = 1 ∨
      ([⟨"d0", ["a", "b"]⟩, ⟨"d1", ["x", "y"]⟩] : List Dimension).length = 2) ∧
    ((dimGet [⟨"d0", ["a", "b"]⟩, ⟨"d1", ["x", "y"]⟩] 0).partitionKeys ≠ [] ∧
      (dimGet [⟨"d0", ["a", "b"]⟩, ⟨"d1", ["x", "y"]⟩] 0).partitionKeys.Nodup) ∧
    stateForKey (buildPartitionHealthData (fun _ => false)
      [⟨"d0", ["a", "b"]⟩, ⟨"d1", ["x", "y"]⟩]
      (fullRangePayload [⟨"d0", ["a", "b"]⟩, ⟨"d1", ["x", "y"]⟩])) ["a", "y"] =
      .SUCCESS ∧
    stateForSingleDimension (buildPartitionHealthData (fun _ => false)
      [⟨"d0", ["a", "b"]⟩, ⟨"d1", ["x", "y"]⟩]
      (fullRangePayload [⟨"d0", ["a", "b"]⟩, ⟨"d1", ["x", "y"]⟩])) 0 "b" none =
      .ok .SUCCESS :=
  ⟨by decide, by decide,
    (c9_full_range_round_trip (fun _ => false)
      [⟨"d0", ["a", "b"]⟩, ⟨"d1", ["x", "y"]⟩] (by decide) rfl (by decide)
      (by decide)).1.2 (by decide) "a" (by decide) "y" (by decide),
    (c9_full_range_round_trip (fun _ => false)
      [⟨"d0", ["a", "b"]⟩, ⟨"d1", ["x", "y"]⟩] (by decide) rfl (by decide)
      (by decide)).2 "b" (by decide)⟩
